import Mathlib

/-!
Verification of the StocksManager technical-indicator library
(`app/analyser/indicators.py`) and its price-level analyzer
(`app/service/market_data.py`).

Modelling conventions:
- Python floats are modelled as rationals (`ℚ`); the float value `nan`
  used for warm-up padding is modelled as `none : Option ℚ`, a finite
  value `v` as `some v`.
- Python exceptions (`ZeroDivisionError`, `IndexError`) are modelled by
  `Except Unit`: `.error ()` is a raised exception, `.ok r` a normal
  return value.
- Integer `period` parameters are modelled as `ℕ`.  Every function of the
  indicator library guards `period < 1` uniformly, so a negative period
  takes the same branch as `period = 0`; the exception is `atr`, which has
  no such guard and is modelled here for `period ≥ 0`.
- `datetime` timestamps are never inspected arithmetically; they are
  modelled as `ℕ`.
-/

namespace StocksManager

/-- Loop body of `sma` (`indicators.py`, lines 34-36): the running window
sum is updated with `prices[i] - prices[i - period]`; the zipped list
pairs `prices[i]` with `prices[i - period]`. -/
def smaLoop (period : ℕ) : ℚ → List (ℚ × ℚ) → List ℚ
  | _, [] => []
  | s, (a, b) :: ps =>
    let s2 := s + (a - b)
    s2 / (period : ℚ) :: smaLoop period s2 ps

/-- Simple Moving Average (`indicators.py`, `sma`).  Returns a NaN-padded
list of the input length; the guard `period < 1 or len(prices) < period`
yields an all-NaN result. -/
def sma (prices : List ℚ) (period : ℕ) : List (Option ℚ) :=
  if period < 1 ∨ prices.length < period then
    List.replicate prices.length none
  else
    let windowSum := (prices.take period).sum
    List.replicate (period - 1) (none : Option ℚ)
      ++ some (windowSum / (period : ℚ))
        :: (smaLoop period windowSum (List.zip (prices.drop period) prices)).map some

/-- Loop body of `ema` (`indicators.py`, lines 66-68):
`ema_val = (prices[i] - result[-1]) * multiplier + result[-1]`. -/
def emaLoop (mult : ℚ) : ℚ → List ℚ → List ℚ
  | _, [] => []
  | prev, p :: ps =>
    let v := (p - prev) * mult + prev
    v :: emaLoop mult v ps

/-- Exponential Moving Average (`indicators.py`, `ema`), with
`multiplier = 2 / (period + 1)` and the first value seeded with the SMA of
the first `period` prices. -/
def ema (prices : List ℚ) (period : ℕ) : List (Option ℚ) :=
  if period < 1 ∨ prices.length < period then
    List.replicate prices.length none
  else
    let mult : ℚ := 2 / ((period : ℚ) + 1)
    let seed := (prices.take period).sum / (period : ℚ)
    List.replicate (period - 1) (none : Option ℚ)
      ++ some seed :: (emaLoop mult seed (prices.drop period)).map some

/-- Element `k` of a list made of `k` padding elements followed by `a`. -/
theorem getElem?_pad {α : Type} (k : ℕ) (x a : α) (t : List α) :
    (List.replicate k x ++ a :: t)[k]? = some a := by
  induction k with
  | zero => simp
  | succ n ih => simpa [List.replicate_succ] using ih

/-- C2: for every price list with `len(prices) ≥ period ≥ 1`, the first
non-NaN EMA value, at position `period - 1`, and the first non-NaN SMA
value, at the same position, both equal the arithmetic mean of the first
`period` prices exactly (the EMA is seeded with the SMA of the first
`period` prices). -/
theorem ema_seed_eq_sma (prices : List ℚ) (period : ℕ)
    (h1 : 1 ≤ period) (h2 : period ≤ prices.length) :
    (ema prices period)[period - 1]? =
      some (some ((prices.take period).sum / (period : ℚ)))
    ∧ (sma prices period)[period - 1]? =
      some (some ((prices.take period).sum / (period : ℚ))) := by
  have hg : ¬ (period < 1 ∨ prices.length < period) := by omega
  constructor
  · rw [ema, if_neg hg]
    exact getElem?_pad _ _ _ _
  · rw [sma, if_neg hg]
    exact getElem?_pad _ _ _ _

/-- Witness for C2 at `prices = [1, 2, 3]`, `period = 2`: both series hold
`3/2` at position 1. -/
theorem ema_seed_eq_sma_witness :
    1 ≤ 2 ∧ 2 ≤ ([(1 : ℚ), 2, 3]).length
    ∧ ((ema [(1 : ℚ), 2, 3] 2)[2 - 1]? =
        some (some ((([(1 : ℚ), 2, 3]).take 2).sum / ((2 : ℕ) : ℚ)))
      ∧ (sma [(1 : ℚ), 2, 3] 2)[2 - 1]? =
        some (some ((([(1 : ℚ), 2, 3]).take 2).sum / ((2 : ℕ) : ℚ)))) :=
  ⟨by norm_num, by norm_num,
    ema_seed_eq_sma [(1 : ℚ), 2, 3] 2 (by norm_num) (by norm_num)⟩

/-- RSI value from an average gain and an average loss
(`indicators.py`, lines 101-106 and 113-118): `100` when the average loss
is zero, else `100 - 100 / (1 + avg_gain / avg_loss)`. -/
def rsiVal (g l : ℚ) : ℚ :=
  if l = 0 then 100 else 100 - 100 / (1 + g / l)

/-- Wilder-smoothing loop of `rsi` (`indicators.py`, lines 109-118),
consuming the remaining `(gain, loss)` pairs. -/
def rsiLoop (period : ℕ) : ℚ → ℚ → List (ℚ × ℚ) → List ℚ
  | _, _, [] => []
  | ag, al, (g, l) :: gls =>
    let ag2 := (ag * ((period : ℚ) - 1) + g) / (period : ℚ)
    let al2 := (al * ((period : ℚ) - 1) + l) / (period : ℚ)
    rsiVal ag2 al2 :: rsiLoop period ag2 al2 gls

/-- Relative Strength Index (`indicators.py`, `rsi`).  The guard
`period < 1 or len(prices) < period + 1` yields an all-NaN result;
otherwise the first `period` positions are NaN, the first value comes from
the simple averages of the first `period` gains/losses, and the rest from
Wilder smoothing. -/
def rsi (prices : List ℚ) (period : ℕ) : List (Option ℚ) :=
  if period < 1 ∨ prices.length < period + 1 then
    List.replicate prices.length none
  else
    let deltas := List.zipWith (fun a b => a - b) (prices.drop 1) prices
    let gains := deltas.map (fun d => if 0 < d then d else 0)
    let losses := deltas.map (fun d => if d < 0 then -d else 0)
    let avgGain := (gains.take period).sum / (period : ℚ)
    let avgLoss := (losses.take period).sum / (period : ℚ)
    List.replicate period (none : Option ℚ)
      ++ some (rsiVal avgGain avgLoss)
        :: (rsiLoop period avgGain avgLoss
              (List.zip (gains.drop period) (losses.drop period))).map some

/-- Zipping two constant lists gives a constant list of the shorter
length. -/
theorem zipWith_replicate_min {α β γ : Type} (f : α → β → γ)
    (m n : ℕ) (a : α) (b : β) :
    List.zipWith f (List.replicate m a) (List.replicate n b) =
      List.replicate (min m n) (f a b) := by
  induction m generalizing n with
  | zero => simp
  | succ k ih =>
    cases n with
    | zero => simp
    | succ j =>
      simp [List.replicate_succ, ih, Nat.succ_min_succ]

/-- The Wilder loop of `rsi`, fed with zero gains and zero losses from a
zero starting state, stays in the `avg_loss = 0` branch and emits `100`
forever. -/
theorem rsiLoop_zero (p k : ℕ) :
    rsiLoop p 0 0 (List.replicate k ((0 : ℚ), (0 : ℚ))) =
      List.replicate k 100 := by
  induction k with
  | zero => rfl
  | succ m ih => simpa [List.replicate_succ, rsiLoop, rsiVal] using ih

/-- C8: on a constant price list of length `n ≥ period + 1` with
`period ≥ 1`, RSI is NaN on the first `period` positions and exactly `100`
at every computable position (every per-step gain and loss is `0`, so
`avg_loss` stays `0` and the `avg_loss == 0` branch is always taken). -/
theorem rsi_const (c : ℚ) (n p : ℕ) (h1 : 1 ≤ p) (h2 : p + 1 ≤ n) :
    rsi (List.replicate n c) p =
      List.replicate p none ++ List.replicate (n - p) (some 100) := by
  have hg : ¬ (p < 1 ∨ (List.replicate n c).length < p + 1) := by
    simp only [List.length_replicate]
    omega
  rw [rsi, if_neg hg]
  have hv : rsiVal 0 0 = 100 := by simp [rsiVal]
  simp only [List.drop_replicate, zipWith_replicate_min, sub_self,
    lt_self_iff_false, if_false, neg_zero, List.map_replicate,
    List.take_replicate, List.sum_replicate, smul_zero, zero_div,
    List.zip_replicate, Nat.min_self, hv, rsiLoop_zero]
  have hk : n - p = (n - 1 - p) + 1 := by omega
  rw [hk, List.replicate_succ, Nat.min_eq_left (Nat.sub_le n 1)]

/-- Witness for C8 at the constant list `[5, 5]` with `period = 1`:
`rsi` returns `[NaN, 100]`. -/
theorem rsi_const_witness :
    1 ≤ 1 ∧ 1 + 1 ≤ 2
    ∧ rsi (List.replicate 2 (5 : ℚ)) 1 =
        List.replicate 1 none ++ List.replicate (2 - 1) (some 100) :=
  ⟨le_refl 1, by norm_num, rsi_const 5 2 1 (le_refl 1) (by norm_num)⟩

/-- True-range step for positions `i ≥ 1` (`indicators.py`, lines
264-268): `max(high - low, |high - prev_close|, |low - prev_close|)`. -/
def trStep (h l c : ℚ) : ℚ :=
  max (h - l) (max |h - c| |l - c|)

/-- Wilder-smoothing loop of `atr` (`indicators.py`, lines 276-278):
`atr_val = (result[-1] * (period - 1) + tr[i]) / period`. -/
def wilderSub (period : ℕ) (prev : ℚ) : List ℚ → List ℚ
  | [] => []
  | t :: ts =>
    let v := (prev * ((period : ℕ) - 1 : ℚ) + t) / (period : ℚ)
    v :: wilderSub period v ts

/-- Average True Range (`indicators.py`, `atr`).  Mismatched input lengths
and `n < period + 1` both return an all-NaN list of length `len(highs)`.
There is no `period < 1` guard: with `period = 0` the seed expression
`sum(tr[1:period+1]) / period` raises `ZeroDivisionError` in Python,
modelled as `.error ()`.  The final match arm is unreachable for
`period ≥ 0` (there `n ≥ period + 1 ≥ 1`); it stands for the `IndexError`
that `tr = [highs[0] - lows[0]]` would raise on empty input. -/
def atr (highs lows closes : List ℚ) (period : ℕ) :
    Except Unit (List (Option ℚ)) :=
  let n := highs.length
  if ¬ (n = lows.length ∧ n = closes.length) then
    .ok (List.replicate n none)
  else if n < period + 1 then
    .ok (List.replicate n none)
  else
    match highs, lows with
    | h0 :: _, l0 :: _ =>
      let tr := (h0 - l0) ::
        List.zipWith3 trStep (highs.drop 1) (lows.drop 1) closes
      if period = 0 then
        .error ()
      else
        let firstAtr := ((tr.drop 1).take period).sum / (period : ℚ)
        .ok (List.replicate period (none : Option ℚ)
          ++ some firstAtr
            :: (wilderSub period firstAtr (tr.drop (period + 1))).map some)
    | _, _ => .error ()

/-- C1 (failing input): `atr` has no `period < 1` guard, so on the
one-candle input `highs = lows = closes = [1]` with `period = 0` the
guards pass (`1 < 0 + 1` is false) and the seed division
`sum(tr[1:1]) / 0` raises `ZeroDivisionError` — contradicting the
module's stated contract that every indicator returns a length-matched,
NaN-padded list and never raises. -/
theorem atr_period_zero_raises :
    atr [(1 : ℚ)] [1] [1] 0 = .error () := rfl

/-- C3 (counterexample to the claim as stated): with mismatched input
lengths (`highs`/`closes` of length 2, `lows` of length 1), `atr` does
not raise; it returns the NaN-filled length-2 list. -/
theorem atr_mismatch_counterexample :
    atr [(1 : ℚ), 2] [1] [1, 2] 14 = .ok [none, none]
    ∧ atr [(1 : ℚ), 2] [1] [1, 2] 14 ≠ .error () :=
  ⟨rfl, fun hE => Except.noConfusion hE⟩

/-- C3 (amended): for every triple of input arrays in which at least two
lengths differ, and every period, `atr` returns — without raising — a
NaN-filled list whose length is that of `highs`. -/
theorem atr_mismatch (hs ls cs : List ℚ) (period : ℕ)
    (h : ¬ (hs.length = ls.length ∧ hs.length = cs.length)) :
    atr hs ls cs period = .ok (List.replicate hs.length none) := by
  simp [atr, h]

/-- Witness for the amended C3 at `highs = [1,2]`, `lows = [1]`,
`closes = [1,2]`. -/
theorem atr_mismatch_witness :
    ¬ (([(1 : ℚ), 2]).length = ([(1 : ℚ)]).length
        ∧ ([(1 : ℚ), 2]).length = ([(1 : ℚ), 2]).length)
    ∧ atr [(1 : ℚ), 2] [1] [1, 2] 7 =
        .ok (List.replicate ([(1 : ℚ), 2]).length none) :=
  ⟨by decide, atr_mismatch [1, 2] [1] [1, 2] 7 (by decide)⟩

/-- Position-wise difference with NaN propagation (`indicators.py`,
lines 161-166 and 181-186): NaN when either operand is NaN. -/
def optSub (a b : Option ℚ) : Option ℚ :=
  match a, b with
  | some x, some y => some (x - y)
  | _, _ => none

/-- The MACD line (`indicators.py`, lines 160-166):
`EMA(fast) - EMA(slow)` position-wise, NaN where either operand is NaN. -/
def macdLine (prices : List ℚ) (fast slow : ℕ) : List (Option ℚ) :=
  List.zipWith optSub (ema prices fast) (ema prices slow)

/-- Result record of `macd` (the Python dict with keys
`macd`, `signal`, `histogram`). -/
structure MacdResult where
  macd : List (Option ℚ)
  signal : List (Option ℚ)
  histogram : List (Option ℚ)
  deriving Repr, DecidableEq

/-- MACD (`indicators.py`, `macd`).  Guard `fast_period >= slow_period or
n < slow_period` yields an all-NaN result; if fewer valid (non-NaN) MACD
values exist than `signal_period`, the computed MACD line is returned with
all-NaN signal and histogram; otherwise the signal line is the EMA of the
valid MACD values, re-padded in front with NaN to full length. -/
def macd (prices : List ℚ) (fastPeriod slowPeriod signalPeriod : ℕ) :
    MacdResult :=
  let n := prices.length
  if slowPeriod ≤ fastPeriod ∨ n < slowPeriod then
    ⟨List.replicate n none, List.replicate n none, List.replicate n none⟩
  else
    let macd_line := macdLine prices fastPeriod slowPeriod
    let valid_macd := macd_line.filterMap id
    if valid_macd.length < signalPeriod then
      ⟨macd_line, List.replicate n none, List.replicate n none⟩
    else
      let signal_values := ema valid_macd signalPeriod
      let nan_count := n - valid_macd.length
      let signal_line :=
        List.replicate nan_count (none : Option ℚ) ++ signal_values
      let histogram := List.zipWith optSub macd_line signal_line
      ⟨macd_line, signal_line, histogram⟩

theorem optSub_none_left (b : Option ℚ) : optSub none b = none := rfl

theorem optSub_none_right (a : Option ℚ) : optSub a none = none := by
  cases a <;> rfl

theorem optSub_some (x y : ℚ) : optSub (some x) (some y) = some (x - y) :=
  rfl

/-- The EMA loop preserves length. -/
theorem length_emaLoop (m prev : ℚ) (l : List ℚ) :
    (emaLoop m prev l).length = l.length := by
  induction l generalizing prev with
  | nil => rfl
  | cons p ps ih => simp [emaLoop, ih]

/-- `ema` always returns a list of the input length. -/
theorem length_ema (prices : List ℚ) (period : ℕ) :
    (ema prices period).length = prices.length := by
  rw [ema]
  split
  · simp
  · rename_i hg
    rw [not_or, not_lt, not_lt] at hg
    simp only [List.length_append, List.length_replicate, List.length_cons,
      List.length_map, length_emaLoop, List.length_drop]
    omega

/-- For periods `1 ≤ period ≤ len`, `ema` is `period - 1` NaNs followed by
`len - period + 1` numeric values. -/
theorem ema_shape (prices : List ℚ) (period : ℕ)
    (h1 : 1 ≤ period) (h2 : period ≤ prices.length) :
    ∃ vs : List ℚ,
      ema prices period = List.replicate (period - 1) none ++ vs.map some
      ∧ vs.length = prices.length - period + 1 := by
  have hg : ¬ (period < 1 ∨ prices.length < period) := by omega
  refine ⟨(prices.take period).sum / (period : ℚ) ::
      emaLoop (2 / ((period : ℚ) + 1)) ((prices.take period).sum / (period : ℚ))
        (prices.drop period), ?_, ?_⟩
  · rw [ema, if_neg hg]
    simp [List.map_cons]
  · simp [length_emaLoop, List.length_drop]

theorem zipWith_optSub_none_left (k : ℕ) (l : List (Option ℚ)) :
    List.zipWith optSub (List.replicate k none) l =
      List.replicate (min k l.length) none := by
  induction k generalizing l with
  | zero => simp
  | succ j ih =>
    cases l with
    | nil => simp
    | cons x xs =>
      simp [List.replicate_succ, optSub_none_left, ih, Nat.succ_min_succ]

theorem zipWith_optSub_none_right (l : List (Option ℚ)) (k : ℕ) :
    List.zipWith optSub l (List.replicate k none) =
      List.replicate (min l.length k) none := by
  induction l generalizing k with
  | nil => simp
  | cons x xs ih =>
    cases k with
    | zero => simp
    | succ j =>
      simp [List.replicate_succ, optSub_none_right, ih, Nat.succ_min_succ]

theorem zipWith_optSub_map_some (l1 l2 : List ℚ) :
    List.zipWith optSub (l1.map some) (l2.map some) =
      (List.zipWith (fun a b => a - b) l1 l2).map some := by
  induction l1 generalizing l2 with
  | nil => simp
  | cons x xs ih =>
    cases l2 with
    | nil => simp
    | cons y ys => simp [optSub_some, ih]

theorem filterMap_id_replicate_none (k : ℕ) :
    (List.replicate k (none : Option ℚ)).filterMap id = [] := by
  induction k with
  | zero => rfl
  | succ j ih => simp [List.replicate_succ, ih]

/-- Stripping the NaN padding of a padded numeric list recovers exactly
the numeric values. -/
theorem filterMap_id_pad (k : ℕ) (l : List ℚ) :
    (List.replicate k (none : Option ℚ) ++ l.map some).filterMap id = l := by
  rw [List.filterMap_append, filterMap_id_replicate_none, List.filterMap_map]
  simp

/-- The non-NaN values of the MACD line form a contiguous tail: the line
is NaN padding followed by exactly its valid values. -/
theorem macdLine_contiguous (prices : List ℚ) (fast slow : ℕ)
    (h1 : fast < slow) (h2 : slow ≤ prices.length) :
    macdLine prices fast slow =
      List.replicate
          (prices.length - ((macdLine prices fast slow).filterMap id).length)
          none
        ++ ((macdLine prices fast slow).filterMap id).map some := by
  by_cases hf : 1 ≤ fast
  · have hfn : fast ≤ prices.length := le_trans (le_of_lt h1) h2
    have hs1 : 1 ≤ slow := le_trans hf (le_of_lt h1)
    obtain ⟨vf, hvf, hlf⟩ := ema_shape prices fast hf hfn
    obtain ⟨vs, hvs, hls⟩ := ema_shape prices slow hs1 h2
    have hsplit :
        List.replicate (fast - 1) (none : Option ℚ) ++ vf.map some =
          (List.replicate (fast - 1) (none : Option ℚ)
              ++ (vf.take (slow - fast)).map some)
            ++ (vf.drop (slow - fast)).map some := by
      rw [List.append_assoc, ← List.map_append, List.take_append_drop]
    have hlen1 :
        (List.replicate (fast - 1) (none : Option ℚ)
            ++ (vf.take (slow - fast)).map some).length =
          (List.replicate (slow - 1) (none : Option ℚ)).length := by
      simp only [List.length_append, List.length_replicate, List.length_map,
        List.length_take]
      have : min (slow - fast) vf.length = slow - fast := by
        rw [Nat.min_eq_left]
        omega
      omega
    have hline : macdLine prices fast slow =
        List.replicate (slow - 1) none
          ++ (List.zipWith (fun a b => a - b) (vf.drop (slow - fast)) vs).map
              some := by
      rw [macdLine, hvf, hvs, hsplit,
        List.zipWith_append _ _ _ _ _ hlen1, zipWith_optSub_map_some]
      congr 1
      rw [zipWith_optSub_none_right, hlen1]
      simp
    have hvalid : (macdLine prices fast slow).filterMap id =
        List.zipWith (fun a b => a - b) (vf.drop (slow - fast)) vs := by
      rw [hline, filterMap_id_pad]
    rw [hvalid, hline]
    congr 2
    simp only [List.length_zipWith, List.length_drop]
    omega
  · have hfz : ema prices fast = List.replicate prices.length none := by
      rw [ema, if_pos (Or.inl (by omega))]
    have hline : macdLine prices fast slow =
        List.replicate prices.length none := by
      rw [macdLine, hfz, zipWith_optSub_none_left, length_ema, Nat.min_self]
    rw [hline, filterMap_id_replicate_none]
    simp

/-- C7: for `fast < slow ≤ len(prices)`, (i) the non-NaN MACD values form
a contiguous tail of the MACD line, (ii) `macd` returns the computed MACD
line unchanged, (iii) when the number of valid MACD values is positive but
below `signal_period`, the signal and histogram series are entirely NaN,
and (iv) when at least `signal_period` valid MACD values exist, the signal
line is the EMA of the valid tail re-padded in front with NaN to full
input length. -/
theorem macd_branch_structure (prices : List ℚ) (fast slow signal : ℕ)
    (h1 : fast < slow) (h2 : slow ≤ prices.length) :
    macdLine prices fast slow =
      List.replicate
          (prices.length - ((macdLine prices fast slow).filterMap id).length)
          none
        ++ ((macdLine prices fast slow).filterMap id).map some
    ∧ (macd prices fast slow signal).macd = macdLine prices fast slow
    ∧ (0 < ((macdLine prices fast slow).filterMap id).length →
        ((macdLine prices fast slow).filterMap id).length < signal →
        (macd prices fast slow signal).signal =
            List.replicate prices.length none
          ∧ (macd prices fast slow signal).histogram =
            List.replicate prices.length none)
    ∧ (signal ≤ ((macdLine prices fast slow).filterMap id).length →
        (macd prices fast slow signal).signal =
          List.replicate
              (prices.length -
                ((macdLine prices fast slow).filterMap id).length)
              none
            ++ ema ((macdLine prices fast slow).filterMap id) signal) := by
  have hg : ¬ (slow ≤ fast ∨ prices.length < slow) := by omega
  refine ⟨macdLine_contiguous prices fast slow h1 h2, ?_, ?_, ?_⟩
  · rw [macd, if_neg hg]
    by_cases hlt :
        ((macdLine prices fast slow).filterMap id).length < signal
    · rw [if_pos hlt]
    · rw [if_neg hlt]
  · intro _ hlt
    rw [macd, if_neg hg, if_pos hlt]
    exact ⟨rfl, rfl⟩
  · intro hge
    have hlt : ¬ ((macdLine prices fast slow).filterMap id).length < signal :=
      not_lt.mpr hge
    rw [macd, if_neg hg, if_neg hlt]

/-- Witness for C7 at `prices = [1, 2]`, `fast = 1`, `slow = 2`,
`signal = 9`: one valid MACD value exists (fewer than `signal`), so the
signal and histogram are entirely NaN. -/
theorem macd_branch_structure_witness :
    1 < 2 ∧ 2 ≤ ([(1 : ℚ), 2]).length
    ∧ (macdLine [(1 : ℚ), 2] 1 2 =
        List.replicate
            (([(1 : ℚ), 2]).length -
              ((macdLine [(1 : ℚ), 2] 1 2).filterMap id).length)
            none
          ++ ((macdLine [(1 : ℚ), 2] 1 2).filterMap id).map some
      ∧ (macd [(1 : ℚ), 2] 1 2 9).macd = macdLine [(1 : ℚ), 2] 1 2
      ∧ (0 < ((macdLine [(1 : ℚ), 2] 1 2).filterMap id).length →
          ((macdLine [(1 : ℚ), 2] 1 2).filterMap id).length < 9 →
          (macd [(1 : ℚ), 2] 1 2 9).signal =
              List.replicate ([(1 : ℚ), 2]).length none
            ∧ (macd [(1 : ℚ), 2] 1 2 9).histogram =
              List.replicate ([(1 : ℚ), 2]).length none)
      ∧ (9 ≤ ((macdLine [(1 : ℚ), 2] 1 2).filterMap id).length →
          (macd [(1 : ℚ), 2] 1 2 9).signal =
            List.replicate
                (([(1 : ℚ), 2]).length -
                  ((macdLine [(1 : ℚ), 2] 1 2).filterMap id).length)
                none
              ++ ema ((macdLine [(1 : ℚ), 2] 1 2).filterMap id) 9)) :=
  ⟨by norm_num, by norm_num,
    macd_branch_structure [(1 : ℚ), 2] 1 2 9 (by norm_num) (by norm_num)⟩

/-- A single OHLCV candle (`market_data.py`, dataclass `OHLCV`).
Timestamps are opaque to every computation modelled here. -/
structure OHLCV where
  timestamp : ℕ
  «open» : ℚ
  high : ℚ
  low : ℚ
  close : ℚ
  volume : ℤ
  deriving Repr, DecidableEq

/-- Key price levels (`market_data.py`, dataclass `PriceLevels`); every
field defaults to absent. -/
structure PriceLevels where
  high_52w : Option ℚ := none
  low_52w : Option ℚ := none
  pct_from_52w_high : Option ℚ := none
  pct_from_52w_low : Option ℚ := none
  high_20d : Option ℚ := none
  low_20d : Option ℚ := none
  recent_swing_high : Option ℚ := none
  recent_swing_high_date : Option ℕ := none
  recent_swing_low : Option ℚ := none
  recent_swing_low_date : Option ℕ := none
  nearest_round_above : Option ℚ := none
  nearest_round_below : Option ℚ := none
  atr_percent : Option ℚ := none
  deriving Repr, DecidableEq

/-- Python division: raises `ZeroDivisionError` when the divisor is
zero. -/
def divQ (a b : ℚ) : Except Unit ℚ :=
  if b = 0 then .error () else .ok (a / b)

/-- Loop of `_find_swing_highs` (`market_data.py`, lines 382-394):
tracks the running candidate high; commits it once the drop
`(current_high - candle.low) / current_high` reaches the threshold, then
resets to the current candle; otherwise raises the candidate on a new
high. -/
def swingHighsGo (threshold curHigh : ℚ) (curDate : ℕ)
    (acc : List (ℕ × ℚ)) : List OHLCV → Except Unit (List (ℕ × ℚ))
  | [] => .ok acc.reverse
  | c :: cs => do
    let dropPct ← divQ (curHigh - c.low) curHigh
    if threshold ≤ dropPct then
      swingHighsGo threshold c.high c.timestamp (acc ++ [(curDate, curHigh)]) cs
    else if curHigh < c.high then
      swingHighsGo threshold c.high c.timestamp acc cs
    else
      swingHighsGo threshold curHigh curDate acc cs

/-- `_find_swing_highs` (`market_data.py`): swing highs, most recent
first.  Fewer than two candles yield no swings. -/
def find_swing_highs (candles : List OHLCV) (threshold : ℚ) :
    Except Unit (List (ℕ × ℚ)) :=
  if candles.length < 2 then .ok []
  else
    match candles with
    | [] => .ok []
    | c :: cs => swingHighsGo threshold c.high c.timestamp [] cs

/-- Loop of `_find_swing_lows` (`market_data.py`, lines 425-437):
symmetric to `swingHighsGo`, with rises measured from the running
candidate low. -/
def swingLowsGo (threshold curLow : ℚ) (curDate : ℕ)
    (acc : List (ℕ × ℚ)) : List OHLCV → Except Unit (List (ℕ × ℚ))
  | [] => .ok acc.reverse
  | c :: cs => do
    let risePct ← divQ (c.high - curLow) curLow
    if threshold ≤ risePct then
      swingLowsGo threshold c.low c.timestamp (acc ++ [(curDate, curLow)]) cs
    else if c.low < curLow then
      swingLowsGo threshold c.low c.timestamp acc cs
    else
      swingLowsGo threshold curLow curDate acc cs

/-- `_find_swing_lows` (`market_data.py`): swing lows, most recent
first. -/
def find_swing_lows (candles : List OHLCV) (threshold : ℚ) :
    Except Unit (List (ℕ × ℚ)) :=
  if candles.length < 2 then .ok []
  else
    match candles with
    | [] => .ok []
    | c :: cs => swingLowsGo threshold c.low c.timestamp [] cs

/-- Adaptive round-number step by price magnitude
(`market_data.py`, lines 462-469). -/
def stepOf (price : ℚ) : ℚ :=
  if price < 100 then 10
  else if price < 1000 then 50
  else if price < 10000 then 100
  else 500

/-- `_get_round_number_levels` (`market_data.py`): the nearest round
levels `(round_above, round_below)` around `price`; absent for
non-positive price.  `price // step` is floor division. -/
def get_round_number_levels (price : ℚ) : Option ℚ × Option ℚ :=
  if price ≤ 0 then (none, none)
  else
    let step := stepOf price
    let round_below := ((price / step).floor : ℚ) * step
    let round_above := round_below + step
    if price = round_below then (some price, some (price - step))
    else (some round_above, some round_below)

/-- `_compute_price_levels_from_candles` (`market_data.py`).  The guard
`if not candles or current_price is None` returns an all-absent
`PriceLevels`.  The `.error` arm of the 20-day window match stands for the
`ValueError` Python's `max()` raises on an empty sequence; it is
unreachable because the candle list is non-empty there. -/
def compute_price_levels_from_candles (candles : List OHLCV)
    (current_price : Option ℚ) (atr_value : Option ℚ)
    (swing_threshold_pct : ℚ) : Except Unit PriceLevels :=
  match candles, current_price with
  | [], _ => .ok {}
  | _ :: _, none => .ok {}
  | c0 :: rest, some price => do
    let num_candles := (c0 :: rest).length
    let high_52w := (rest.map (fun c => c.high)).foldl max c0.high
    let low_52w := (rest.map (fun c => c.low)).foldl min c0.low
    let q1 ← divQ (price - high_52w) high_52w
    let pct_from_52w_high := q1 * 100
    let q2 ← divQ (price - low_52w) low_52w
    let pct_from_52w_low := q2 * 100
    let candles_20d :=
      if 20 ≤ num_candles then (c0 :: rest).drop (num_candles - 20)
      else c0 :: rest
    match candles_20d with
    | [] => .error ()
    | d :: ds => do
      let high_20d := (ds.map (fun c => c.high)).foldl max d.high
      let low_20d := (ds.map (fun c => c.low)).foldl min d.low
      let swing_highs ← find_swing_highs (c0 :: rest) swing_threshold_pct
      let swing_lows ← find_swing_lows (c0 :: rest) swing_threshold_pct
      let rounds := get_round_number_levels price
      let atr_percent ← match atr_value with
        | some a =>
          if a = 0 then pure none
          else do
            let q ← divQ a price
            pure (some (q * 100))
        | none => pure (none : Option ℚ)
      pure {
        high_52w := some high_52w
        low_52w := some low_52w
        pct_from_52w_high := some pct_from_52w_high
        pct_from_52w_low := some pct_from_52w_low
        high_20d := some high_20d
        low_20d := some low_20d
        recent_swing_high := swing_highs.head?.map (fun t => t.2)
        recent_swing_high_date := swing_highs.head?.map (fun t => t.1)
        recent_swing_low := swing_lows.head?.map (fun t => t.2)
        recent_swing_low_date := swing_lows.head?.map (fun t => t.1)
        nearest_round_above := rounds.1
        nearest_round_below := rounds.2
        atr_percent := atr_percent }

/-- `Rat.floor` (used for Python floor division) agrees with the
mathematical floor. -/
theorem rat_floor_eq_int_floor (q : ℚ) : q.floor = ⌊q⌋ := by
  rw [Rat.floor_def', Rat.floor_def]

theorem except_ok_bind {α β : Type} (a : α) (f : α → Except Unit β) :
    (Except.ok a >>= f : Except Unit β) = f a := rfl

/-- C4: with an empty candle sequence, or a missing (`None`) current
price, the price-level computation returns a `PriceLevels` in which every
field is absent, and no exception is raised. -/
theorem price_levels_empty_guard (candles : List OHLCV) (cp atrv : Option ℚ)
    (θ : ℚ) (h : candles = [] ∨ cp = none) :
    compute_price_levels_from_candles candles cp atrv θ =
      .ok ⟨none, none, none, none, none, none, none, none, none, none, none,
        none, none⟩ := by
  rcases h with h | h
  · subst h; rfl
  · subst h
    cases candles with
    | nil => rfl
    | cons c cs => rfl

/-- Witness for C4 on an empty candle list (with a present price). -/
theorem price_levels_empty_guard_witness :
    (([] : List OHLCV) = [] ∨ (some (5 : ℚ) : Option ℚ) = none)
    ∧ compute_price_levels_from_candles [] (some 5) none (3 / 100) =
      .ok ⟨none, none, none, none, none, none, none, none, none, none, none,
        none, none⟩ :=
  ⟨Or.inl rfl,
    price_levels_empty_guard [] (some 5) none (3 / 100) (Or.inl rfl)⟩

/-- C5 (counterexample to the claim as stated): at `price = 100`, which
lies exactly on a multiple of its step (`step(100) = 50`), the brackets
are `(round_above, round_below) = (100, 50)`: the price equals the upper
bracket, so it is not strictly interior. -/
theorem round_number_tie_counterexample :
    get_round_number_levels 100 = (some 100, some 50)
    ∧ ¬ (∀ a b : ℚ, get_round_number_levels 100 = (some a, some b) →
          b < 100 ∧ (100 : ℚ) < a) := by
  have h100 : get_round_number_levels (100 : ℚ) = (some 100, some 50) := by
    simp only [get_round_number_levels, stepOf, rat_floor_eq_int_floor]
    norm_num
  exact ⟨h100, fun hall => absurd (hall 100 50 h100).2 (lt_irrefl _)⟩

/-- C5 (amended): for `price > 0` the brackets satisfy
`round_below ≤ price ≤ round_above` and
`round_above - round_below = step(price)`; when `price` lands exactly on a
multiple of its step, the brackets resolve to
`(round_above, round_below) = (price, price - step)`, so the price is
strictly above the lower bracket but coincides with the upper bracket
(not strictly interior).  For `price ≤ 0` both brackets are absent. -/
theorem round_number_brackets (price : ℚ) :
    (0 < price →
      ∃ a b, get_round_number_levels price = (some a, some b)
        ∧ b ≤ price ∧ price ≤ a ∧ a - b = stepOf price
        ∧ (price = ((⌊price / stepOf price⌋ : ℤ) : ℚ) * stepOf price →
            b < price ∧ a = price))
    ∧ (price ≤ 0 → get_round_number_levels price = (none, none)) := by
  constructor
  · intro hp
    have hnle : ¬ price ≤ 0 := not_le.mpr hp
    have hstep : 0 < stepOf price := by
      rw [stepOf]; split_ifs <;> norm_num
    simp only [get_round_number_levels, if_neg hnle, rat_floor_eq_int_floor]
    have hrb_le : ((⌊price / stepOf price⌋ : ℤ) : ℚ) * stepOf price ≤ price := by
      calc ((⌊price / stepOf price⌋ : ℤ) : ℚ) * stepOf price
          ≤ (price / stepOf price) * stepOf price :=
            mul_le_mul_of_nonneg_right (Int.floor_le _) (le_of_lt hstep)
        _ = price := div_mul_cancel₀ price (ne_of_gt hstep)
    have hlt : price <
        ((⌊price / stepOf price⌋ : ℤ) : ℚ) * stepOf price + stepOf price := by
      calc price = (price / stepOf price) * stepOf price :=
            (div_mul_cancel₀ price (ne_of_gt hstep)).symm
        _ < (((⌊price / stepOf price⌋ : ℤ) : ℚ) + 1) * stepOf price :=
            mul_lt_mul_of_pos_right (Int.lt_floor_add_one _) hstep
        _ = ((⌊price / stepOf price⌋ : ℤ) : ℚ) * stepOf price + stepOf price :=
            by ring
    by_cases he :
        price = ((⌊price / stepOf price⌋ : ℤ) : ℚ) * stepOf price
    · rw [if_pos he]
      exact ⟨price, price - stepOf price, rfl, by linarith, le_refl _,
        by ring, fun _ => ⟨by linarith, rfl⟩⟩
    · rw [if_neg he]
      exact ⟨((⌊price / stepOf price⌋ : ℤ) : ℚ) * stepOf price + stepOf price,
        ((⌊price / stepOf price⌋ : ℤ) : ℚ) * stepOf price, rfl, hrb_le,
        le_of_lt hlt, by ring, fun htie => absurd htie he⟩
  · intro hp
    rw [get_round_number_levels, if_pos hp]

/-- Witness for C5 at `price = 7`: brackets `(10, 0)` with step 10. -/
theorem round_number_brackets_witness :
    0 < (7 : ℚ)
    ∧ (∃ a b, get_round_number_levels 7 = (some a, some b)
        ∧ b ≤ 7 ∧ (7 : ℚ) ≤ a ∧ a - b = stepOf 7
        ∧ ((7 : ℚ) = ((⌊(7 : ℚ) / stepOf 7⌋ : ℤ) : ℚ) * stepOf 7 →
            b < 7 ∧ a = 7)) :=
  ⟨by norm_num, (round_number_brackets 7).1 (by norm_num)⟩

/-- The 30-candle scenario of C9: every candle has
`high = low = close = 100`, except candle 15 whose high is `110`. -/
def candles30 : List OHLCV :=
  [⟨0, 100, 100, 100, 100, 0⟩, ⟨1, 100, 100, 100, 100, 0⟩,
   ⟨2, 100, 100, 100, 100, 0⟩, ⟨3, 100, 100, 100, 100, 0⟩,
   ⟨4, 100, 100, 100, 100, 0⟩, ⟨5, 100, 100, 100, 100, 0⟩,
   ⟨6, 100, 100, 100, 100, 0⟩, ⟨7, 100, 100, 100, 100, 0⟩,
   ⟨8, 100, 100, 100, 100, 0⟩, ⟨9, 100, 100, 100, 100, 0⟩,
   ⟨10, 100, 100, 100, 100, 0⟩, ⟨11, 100, 100, 100, 100, 0⟩,
   ⟨12, 100, 100, 100, 100, 0⟩, ⟨13, 100, 100, 100, 100, 0⟩,
   ⟨14, 100, 100, 100, 100, 0⟩, ⟨15, 100, 110, 100, 100, 0⟩,
   ⟨16, 100, 100, 100, 100, 0⟩, ⟨17, 100, 100, 100, 100, 0⟩,
   ⟨18, 100, 100, 100, 100, 0⟩, ⟨19, 100, 100, 100, 100, 0⟩,
   ⟨20, 100, 100, 100, 100, 0⟩, ⟨21, 100, 100, 100, 100, 0⟩,
   ⟨22, 100, 100, 100, 100, 0⟩, ⟨23, 100, 100, 100, 100, 0⟩,
   ⟨24, 100, 100, 100, 100, 0⟩, ⟨25, 100, 100, 100, 100, 0⟩,
   ⟨26, 100, 100, 100, 100, 0⟩, ⟨27, 100, 100, 100, 100, 0⟩,
   ⟨28, 100, 100, 100, 100, 0⟩, ⟨29, 100, 100, 100, 100, 0⟩]

/-- A flat candle (`high = low = 100`) under candidate high 100: drop is
0% (below threshold) and the high is not exceeded, so the state is kept. -/
theorem swing_flat (t d : ℕ) (acc : List (ℕ × ℚ)) (cs : List OHLCV) :
    swingHighsGo (3 / 100) 100 d acc (⟨t, 100, 100, 100, 100, 0⟩ :: cs) =
      swingHighsGo (3 / 100) 100 d acc cs := by
  norm_num [swingHighsGo, divQ, except_ok_bind]

/-- The spike candle raises the candidate to 110 (drop is 0%, high
exceeds candidate). -/
theorem swing_spike (d : ℕ) (acc : List (ℕ × ℚ)) (cs : List OHLCV) :
    swingHighsGo (3 / 100) 100 d acc (⟨15, 100, 110, 100, 100, 0⟩ :: cs) =
      swingHighsGo (3 / 100) 110 15 acc cs := by
  norm_num [swingHighsGo, divQ, except_ok_bind]

/-- A flat candle under candidate high 110: the drop `(110 - 100)/110`
reaches the 3% threshold, so the candidate `(15, 110)` is committed and
tracking resets to the current candle. -/
theorem swing_commit (t : ℕ) (acc : List (ℕ × ℚ)) (cs : List OHLCV) :
    swingHighsGo (3 / 100) 110 15 acc (⟨t, 100, 100, 100, 100, 0⟩ :: cs) =
      swingHighsGo (3 / 100) 100 t (acc ++ [(15, 110)]) cs := by
  norm_num [swingHighsGo, divQ, except_ok_bind]

/-- C9: on the 30-candle flat series with a single spike to 110 at candle
15, the swing-high detector with threshold `0.03` returns exactly one
confirmed swing high: price 110 with the timestamp of candle 15 (the
candidate is committed at candle 16, where the drop
`(110 - 100) / 110 ≈ 9.1%` exceeds 3%). -/
theorem swing_high_spike_scenario :
    find_swing_highs candles30 (3 / 100) = .ok [(15, 110)] := by
  rw [candles30, find_swing_highs]
  norm_num only
  simp only [swing_flat, swing_spike, swing_commit]
  simp [swingHighsGo]

theorem except_pure {α : Type} (a : α) :
    (pure a : Except Unit α) = .ok a := rfl

theorem le_foldl_max (l : List ℚ) (a : ℚ) : a ≤ l.foldl max a := by
  induction l generalizing a with
  | nil => exact le_refl a
  | cons x xs ih => exact le_trans (le_max_left a x) (ih (max a x))

theorem foldl_max_pos (l : List ℚ) (a : ℚ) (ha : 0 < a) :
    0 < l.foldl max a :=
  lt_of_lt_of_le ha (le_foldl_max l a)

theorem foldl_min_pos (l : List ℚ) (a : ℚ) (ha : 0 < a)
    (hl : ∀ x ∈ l, 0 < x) : 0 < l.foldl min a := by
  induction l generalizing a with
  | nil => simpa
  | cons x xs ih =>
    exact ih (min a x) (lt_min ha (hl x (List.mem_cons_self x xs)))
      (fun y hy => hl y (List.mem_cons_of_mem _ hy))

/-- The swing-high loop never raises while the candidate high stays
positive: every division is by the (positive) running candidate. -/
theorem swingHighsGo_ok (θ : ℚ) (cs : List OHLCV) :
    ∀ (ch : ℚ) (d : ℕ) (acc : List (ℕ × ℚ)), 0 < ch →
      (∀ x ∈ cs, 0 < x.high ∧ 0 < x.low ∧ 0 < x.close) →
      ∃ r, swingHighsGo θ ch d acc cs = .ok r := by
  induction cs with
  | nil => exact fun ch d acc _ _ => ⟨acc.reverse, rfl⟩
  | cons c cs ih =>
    intro ch d acc hch hall
    have hc := hall c (List.mem_cons_self c cs)
    have hrest : ∀ x ∈ cs, 0 < x.high ∧ 0 < x.low ∧ 0 < x.close :=
      fun x hx => hall x (List.mem_cons_of_mem _ hx)
    simp only [swingHighsGo, divQ, if_neg (ne_of_gt hch), except_ok_bind]
    by_cases h1 : θ ≤ (ch - c.low) / ch
    · rw [if_pos h1]
      exact ih c.high c.timestamp _ hc.1 hrest
    · rw [if_neg h1]
      by_cases h2 : ch < c.high
      · rw [if_pos h2]
        exact ih c.high c.timestamp acc hc.1 hrest
      · rw [if_neg h2]
        exact ih ch d acc hch hrest

/-- The swing-low loop never raises while the candidate low stays
positive. -/
theorem swingLowsGo_ok (θ : ℚ) (cs : List OHLCV) :
    ∀ (cl : ℚ) (d : ℕ) (acc : List (ℕ × ℚ)), 0 < cl →
      (∀ x ∈ cs, 0 < x.high ∧ 0 < x.low ∧ 0 < x.close) →
      ∃ r, swingLowsGo θ cl d acc cs = .ok r := by
  induction cs with
  | nil => exact fun cl d acc _ _ => ⟨acc.reverse, rfl⟩
  | cons c cs ih =>
    intro cl d acc hcl hall
    have hc := hall c (List.mem_cons_self c cs)
    have hrest : ∀ x ∈ cs, 0 < x.high ∧ 0 < x.low ∧ 0 < x.close :=
      fun x hx => hall x (List.mem_cons_of_mem _ hx)
    simp only [swingLowsGo, divQ, if_neg (ne_of_gt hcl), except_ok_bind]
    by_cases h1 : θ ≤ (c.high - cl) / cl
    · rw [if_pos h1]
      exact ih c.low c.timestamp _ hc.2.1 hrest
    · rw [if_neg h1]
      by_cases h2 : c.low < cl
      · rw [if_pos h2]
        exact ih c.low c.timestamp acc hc.2.1 hrest
      · rw [if_neg h2]
        exact ih cl d acc hcl hrest

theorem find_swing_highs_ok (c0 : OHLCV) (rest : List OHLCV) (θ : ℚ)
    (hpos : ∀ x ∈ c0 :: rest, 0 < x.high ∧ 0 < x.low ∧ 0 < x.close) :
    ∃ r, find_swing_highs (c0 :: rest) θ = .ok r := by
  by_cases hlen : (c0 :: rest).length < 2
  · exact ⟨[], by simp only [find_swing_highs, if_pos hlen]⟩
  · obtain ⟨r, hr⟩ := swingHighsGo_ok θ rest c0.high c0.timestamp []
      (hpos c0 (List.mem_cons_self c0 rest)).1
      (fun x hx => hpos x (List.mem_cons_of_mem _ hx))
    exact ⟨r, by simp only [find_swing_highs, if_neg hlen]; exact hr⟩

theorem find_swing_lows_ok (c0 : OHLCV) (rest : List OHLCV) (θ : ℚ)
    (hpos : ∀ x ∈ c0 :: rest, 0 < x.high ∧ 0 < x.low ∧ 0 < x.close) :
    ∃ r, find_swing_lows (c0 :: rest) θ = .ok r := by
  by_cases hlen : (c0 :: rest).length < 2
  · exact ⟨[], by simp only [find_swing_lows, if_pos hlen]⟩
  · obtain ⟨r, hr⟩ := swingLowsGo_ok θ rest c0.low c0.timestamp []
      (hpos c0 (List.mem_cons_self c0 rest)).2.1
      (fun x hx => hpos x (List.mem_cons_of_mem _ hx))
    exact ⟨r, by simp only [find_swing_lows, if_neg hlen]; exact hr⟩

/-- Core success lemma for the price-level computation: on a non-empty
candle list with strictly positive highs, lows and closes, and any
non-zero current price, every division succeeds and the computation
returns a `PriceLevels`; the `atr_percent` field follows Python
truthiness of the ATR value. -/
theorem compute_price_levels_ok (c0 : OHLCV) (rest : List OHLCV) (p : ℚ)
    (atrv : Option ℚ) (θ : ℚ)
    (hpos : ∀ x ∈ c0 :: rest, 0 < x.high ∧ 0 < x.low ∧ 0 < x.close)
    (hp : p ≠ 0) :
    ∃ pl,
      compute_price_levels_from_candles (c0 :: rest) (some p) atrv θ = .ok pl
      ∧ pl.atr_percent = (match atrv with
          | none => none
          | some a => if a = 0 then none else some (a / p * 100)) := by
  have hc0 := hpos c0 (List.mem_cons_self c0 rest)
  have hH : (0 : ℚ) < (rest.map (fun c => c.high)).foldl max c0.high :=
    foldl_max_pos _ _ hc0.1
  have hL : (0 : ℚ) < (rest.map (fun c => c.low)).foldl min c0.low := by
    refine foldl_min_pos _ _ hc0.2.1 ?_
    intro x hx
    obtain ⟨c, hc, rfl⟩ := List.mem_map.mp hx
    exact (hpos c (List.mem_cons_of_mem _ hc)).2.1
  obtain ⟨sh, hsh⟩ := find_swing_highs_ok c0 rest θ hpos
  obtain ⟨sl, hsl⟩ := find_swing_lows_ok c0 rest θ hpos
  obtain ⟨d, ds, hds⟩ :
      ∃ d ds,
        (if 20 ≤ (c0 :: rest).length then
            (c0 :: rest).drop ((c0 :: rest).length - 20)
          else c0 :: rest) = d :: ds := by
    split
    · rename_i hge
      have hlen :
          ((c0 :: rest).drop ((c0 :: rest).length - 20)).length = 20 := by
        rw [List.length_drop]
        omega
      cases hd : (c0 :: rest).drop ((c0 :: rest).length - 20) with
      | nil => rw [hd] at hlen; simp at hlen
      | cons d ds => exact ⟨d, ds, rfl⟩
    · exact ⟨c0, rest, rfl⟩
  cases atrv with
  | none =>
    simp only [compute_price_levels_from_candles, divQ,
      if_neg (ne_of_gt hH), if_neg (ne_of_gt hL), except_ok_bind, hds, hsh,
      hsl, except_pure]
    exact ⟨_, rfl, rfl⟩
  | some a =>
    by_cases ha : a = 0
    · subst ha
      simp only [compute_price_levels_from_candles, divQ,
        if_neg (ne_of_gt hH), if_neg (ne_of_gt hL), except_ok_bind, hds,
        hsh, hsl, eq_self_iff_true, if_true, except_pure]
      exact ⟨_, rfl, rfl⟩
    · simp only [compute_price_levels_from_candles, divQ,
        if_neg (ne_of_gt hH), if_neg (ne_of_gt hL), except_ok_bind, hds,
        hsh, hsl, if_neg ha, if_neg hp, except_pure]
      exact ⟨_, rfl, rfl⟩

/-- C6 (counterexample to the claim as stated): one flat candle at 100,
current price 100, and an available ATR value of exactly 0.  The claim
predicts `atr_percent = 0/100*100 = 0` (present); the code's Python
truthiness test `if atr_value` treats `0` as unavailable, so the field is
absent. -/
theorem atr_percent_zero_counterexample :
    compute_price_levels_from_candles [⟨0, 100, 100, 100, 100, 0⟩]
        (some 100) (some 0) (3 / 100) =
      .ok ⟨some 100, some 100, some 0, some 0, some 100, some 100, none,
        none, none, none, some 100, some 50, none⟩
    ∧ (none : Option ℚ) ≠ some ((0 : ℚ) / 100 * 100) := by
  constructor
  · norm_num [compute_price_levels_from_candles, divQ, find_swing_highs,
      find_swing_lows, get_round_number_levels, stepOf,
      rat_floor_eq_int_floor, except_ok_bind, except_pure]
  · simp

/-- C6 (amended): on a successful computation (non-empty positive candles,
non-zero current price `p`), `atr_percent` follows Python truthiness of
the ATR value: it equals `atr/p*100` when the ATR value is present and
non-zero, and is absent both when the ATR value is missing and when it is
exactly 0.  The sign of `p` is never checked (a zero `p` with a non-zero
ATR would raise `ZeroDivisionError`). -/
theorem atr_percent_truthiness (c0 : OHLCV) (rest : List OHLCV) (p : ℚ)
    (atrv : Option ℚ) (θ : ℚ)
    (hpos : ∀ x ∈ c0 :: rest, 0 < x.high ∧ 0 < x.low ∧ 0 < x.close)
    (hp : p ≠ 0) :
    ∃ pl,
      compute_price_levels_from_candles (c0 :: rest) (some p) atrv θ = .ok pl
      ∧ pl.atr_percent = (match atrv with
          | none => none
          | some a => if a = 0 then none else some (a / p * 100)) :=
  compute_price_levels_ok c0 rest p atrv θ hpos hp

/-- Witness for the amended C6: one flat candle at 100, price 200, ATR 4:
the computation succeeds and `atr_percent = 4/200*100 = 2`. -/
theorem atr_percent_truthiness_witness :
    (∀ x ∈ [(⟨0, 100, 100, 100, 100, 0⟩ : OHLCV)],
      0 < x.high ∧ 0 < x.low ∧ 0 < x.close)
    ∧ (200 : ℚ) ≠ 0
    ∧ ∃ pl,
        compute_price_levels_from_candles [⟨0, 100, 100, 100, 100, 0⟩]
          (some 200) (some 4) (3 / 100) = .ok pl
        ∧ pl.atr_percent = (match (some (4 : ℚ) : Option ℚ) with
            | none => none
            | some a => if a = 0 then none else some (a / 200 * 100)) :=
  ⟨by norm_num, by norm_num,
    atr_percent_truthiness ⟨0, 100, 100, 100, 100, 0⟩ [] 200 (some 4)
      (3 / 100) (by norm_num) (by norm_num)⟩

/-- C10: on a non-empty candle sequence in which every candle's high, low
and close are strictly positive, the price-level computation — invoked as
the callers do, with the current price being the last candle's close —
performs no division by zero (every divisor: the 52-week high and low, the
running swing candidates, and the current price, is nonzero) and returns a
`PriceLevels` without raising. -/
theorem price_levels_pos_no_raise (c0 : OHLCV) (rest : List OHLCV)
    (atrv : Option ℚ) (θ : ℚ)
    (hpos : ∀ x ∈ c0 :: rest, 0 < x.high ∧ 0 < x.low ∧ 0 < x.close) :
    ∃ pl, compute_price_levels_from_candles (c0 :: rest)
        (some (((c0 :: rest).getLast (List.cons_ne_nil c0 rest)).close))
        atrv θ = .ok pl := by
  have hlast := hpos _ (List.getLast_mem (List.cons_ne_nil c0 rest))
  obtain ⟨pl, h, _⟩ := compute_price_levels_ok c0 rest _ atrv θ hpos
    (ne_of_gt hlast.2.2)
  exact ⟨pl, h⟩

/-- Witness for C10 on a single positive candle. -/
theorem price_levels_pos_no_raise_witness :
    (∀ x ∈ [(⟨0, 100, 100, 100, 100, 0⟩ : OHLCV)],
      0 < x.high ∧ 0 < x.low ∧ 0 < x.close)
    ∧ ∃ pl, compute_price_levels_from_candles
        [(⟨0, 100, 100, 100, 100, 0⟩ : OHLCV)]
        (some ((([(⟨0, 100, 100, 100, 100, 0⟩ : OHLCV)]).getLast
          (List.cons_ne_nil _ _)).close))
        none (3 / 100) = .ok pl :=
  ⟨by norm_num,
    price_levels_pos_no_raise ⟨0, 100, 100, 100, 100, 0⟩ [] none (3 / 100)
      (by norm_num)⟩

end StocksManager
